import Mathlib

/-!
Verification development for the parsey repository: an Earley recogniser and
lazy parse-tree extractor.

The Rust sources are embedded shallowly:

* `Symbol`, `Rule` are taken from `src/grammar/symbol.rs` and
  `src/grammar/rule.rs`.
* `Item`, `StateSet` are taken from `src/state/item.rs` and
  `src/state/stateset.rs`.  Rust's `#[derive(PartialEq)]` on
  `Item<'a> \x7b rule: &'a Rule, ... \x7d` compares the `&'a Rule` field by
  dereferencing to `Rule`'s structural equality, so items are modelled as
  carrying the `Rule` value itself; equality of items is structural equality
  of the triple.
* `build_parse_state` and `recognise` are taken from `src/lib.rs`.  The
  append-while-iterating inner loop of `build_parse_state` is embedded with an
  explicit fuel parameter; `none` marks either fuel exhaustion or a Rust panic
  (out-of-bounds indexing inside `Item::complete`, or the `unwrap` calls).
  A theorem below shows the canonical fuel always suffices and the panic
  branches are unreachable, so the embedding is total in the same sense the
  Rust loop is.
* The tree extractor is taken from `src/ast.rs`; the lazy backtracking
  `NodeIterator` is embedded as a fuel-indexed enumeration listing, in the
  iterator's order, the trees whose construction needs recursion depth below
  the fuel.  Rust's `HashSet` for `OneOf` is embedded as a `List Char`
  (membership-only use; list equality stands in for set equality, and no
  grammar below contains two order-variant copies of one set).
* The `Grammar` type itself (the grammar module root with the nullability
  fixpoint) is absent from the sources, which contain only its callers; it is
  modelled from the spec where marked.
-/

namespace Parsey

/-- One grammar symbol, from `src/grammar/symbol.rs` (`Symbol`): a rule
reference, a literal character, or a character set (`NonEmptyHashSet<char>`
embedded as a `List Char`). -/
inductive Symbol where
  | rule (name : String)
  | literal (c : Char)
  | oneOf (cs : List Char)
deriving DecidableEq, Repr

/-- `Symbol::rule_name` from `src/grammar/symbol.rs`. -/
def Symbol.rule_name : Symbol → Option String
  | .rule name => some name
  | .literal _ => none
  | .oneOf _ => none

/-- `Symbol::is_terminal` from `src/grammar/symbol.rs`. -/
def Symbol.is_terminal (s : Symbol) : Bool := s.rule_name.isNone

/-- A grammar rule, from `src/grammar/rule.rs` (`Rule`): a name and an ordered
body of symbols. -/
structure Rule where
  name : String
  body : List Symbol
deriving DecidableEq, Repr

/-- `Rule::get` from `src/grammar/rule.rs`. -/
def Rule.get (r : Rule) (index : Nat) : Option Symbol := r.body.get? index

/-- `Rule::is_nullable` from `src/grammar/rule.rs`: an empty body is nullable;
a body containing a terminal is not; otherwise every symbol must be a rule
reference to the rule's own name or to a name in `nullable_symbols`
(a `HashSet<String>` embedded as a `List String`, membership-only use). -/
def Rule.is_nullable (r : Rule) (nullable_symbols : List String) : Bool :=
  if r.body.isEmpty then
    true
  else if r.body.any Symbol.is_terminal then
    false
  else
    r.body.all fun s =>
      match s.rule_name with
      | some name => name == r.name || nullable_symbols.contains name
      | none => true

/-- Modelled from the spec: the grammar module root is absent from the
sources (only a stale prototype and the callers remain).  Per the spec a
grammar is an ordered list of rules; the precomputed nullable set is derived
below. -/
structure Grammar where
  rules : List Rule
deriving DecidableEq, Repr

/-- `Grammar::get_rules_by_name`: all rules sharing the name, in declared
order (present in the stale prototype and described by the spec). -/
def Grammar.get_rules_by_name (g : Grammar) (name : String) : List Rule :=
  g.rules.filter fun r => r.name == name

/-- `Grammar::start_symbol`: the first rule's name.  Rust grammars are
non-empty by construction; the empty case is given a default name. -/
def Grammar.start_symbol (g : Grammar) : String :=
  match g.rules with
  | [] => ""
  | r :: _ => r.name

/-- Modelled from the spec: one full pass of the nullability fixpoint
computation, inserting the name of every rule that is locally nullable given
the set accumulated so far. -/
def nullablePass (rules : List Rule) (acc : List String) : List String :=
  rules.foldl
    (fun acc r =>
      if r.is_nullable acc && !(acc.contains r.name) then acc ++ [r.name]
      else acc)
    acc

/-- Modelled from the spec: iterate `nullablePass` until a pass adds nothing.
Each productive pass adds at least one of the at most `rules.length` distinct
rule names, so `rules.length` passes always reach the fixpoint. -/
def nullableFix : Nat → List Rule → List String → List String
  | 0, _, acc => acc
  | fuel + 1, rules, acc =>
    let acc' := nullablePass rules acc
    if acc'.length == acc.length then acc else nullableFix fuel rules acc'

/-- Modelled from the spec: the precomputed set `N` of nullable rule names. -/
def Grammar.nullable (g : Grammar) : List String :=
  nullableFix g.rules.length g.rules []

/-- `Grammar::rule_is_nullable` (caller-visible in `src/state/item.rs`):
membership in the precomputed nullable set. -/
def Grammar.rule_is_nullable (g : Grammar) (name : String) : Bool :=
  g.nullable.contains name

/-- An Earley item, from `src/state/item.rs` (`Item`): the referenced rule
(see the header note on reference equality), the start position and the
progress index. -/
structure Item where
  rule : Rule
  start : Nat
  progress : Nat
deriving DecidableEq, Repr

/-- `Item::from_rules` from `src/state/item.rs`. -/
def Item.from_rules (rules : List Rule) (start : Nat) : List Item :=
  rules.map fun rule => { rule := rule, start := start, progress := 0 }

/-- `Item::rule_name` from `src/state/item.rs`. -/
def Item.rule_name (it : Item) : String := it.rule.name

/-- `Item::is_complete` from `src/state/item.rs`: `progress >= body.len()`. -/
def Item.is_complete (it : Item) : Bool := it.rule.body.length ≤ it.progress

/-- `Item::next_name` from `src/state/item.rs`. -/
def Item.next_name (it : Item) : Option String :=
  (it.rule.get it.progress).bind Symbol.rule_name

/-- `Item::advanced` from `src/state/item.rs`. -/
def Item.advanced (it : Item) : Item := { it with progress := it.progress + 1 }

/-- `Item::scan` from `src/state/item.rs`: look at `input[pos]`, filter by the
predicate, and on success return the advanced item. -/
def Item.scan (it : Item) (input : List Char) (pos : Nat)
    (pred : Char → Bool) : Option Item :=
  ((input.get? pos).filter pred).map fun _ => it.advanced

/-- A state set, from `src/state/stateset.rs` (`StateSet`): the items in
insertion order plus the single-pass cursor. -/
structure StateSet where
  items : List Item
  next : Nat
deriving DecidableEq, Repr

/-- `StateSet::new` from `src/state/stateset.rs`. -/
def StateSet.new (items : List Item) : StateSet := { items := items, next := 0 }

/-- `StateSet::next` from `src/state/stateset.rs` (named `advance` here since
the `next` field occupies the name): read the cursor position and uncondition-
ally move the cursor forward. -/
def StateSet.advance (s : StateSet) : Option Item × StateSet :=
  (s.items.get? s.next, { s with next := s.next + 1 })

/-- `StateSet::add` from `src/state/stateset.rs`: append each new item unless
it is already present. -/
def StateSet.add (s : StateSet) (new_items : List Item) : StateSet :=
  { s with
    items :=
      new_items.foldl
        (fun acc item => if acc.contains item then acc else acc ++ [item])
        s.items }

/-- `Item::complete` from `src/state/item.rs`: pick the state set the item
started in (the current one for empty spans), advance every item there that
is waiting on this item's rule name, and add the results to the current set.
`none` models the Rust panic when `start` exceeds `prev_state.len()`. -/
def Item.complete (it : Item) (current_state : StateSet)
    (prev_state : List StateSet) : Option StateSet :=
  let target : Option (List Item) :=
    if it.start = prev_state.length then some current_state.items
    else (prev_state.get? it.start).map StateSet.items
  target.map fun target_items =>
    current_state.add <|
      target_items.filterMap fun item =>
        ((item.next_name).filter fun name => name == it.rule.name).map
          fun _ => item.advanced

/-- `Item::parse` from `src/state/item.rs`: predict (and, for a nullable
referenced rule, run the completion step for this item), scan, or complete. -/
def Item.parse (it : Item) (g : Grammar) (current_state : StateSet)
    (prev_state : List StateSet) (input : List Char)
    (current_position : Nat) : Option (StateSet × Option Item) :=
  match it.rule.get it.progress with
  | some (Symbol.rule name) =>
    let current_state :=
      current_state.add (Item.from_rules (g.get_rules_by_name name)
        current_position)
    if g.rule_is_nullable name then
      match it.complete current_state prev_state with
      | some current_state => some (current_state, none)
      | none => none
    else
      some (current_state, none)
  | some (Symbol.literal c) =>
    some (current_state, it.scan input current_position fun next => next == c)
  | some (Symbol.oneOf cs) =>
    some (current_state,
      it.scan input current_position fun next => cs.contains next)
  | none =>
    match it.complete current_state prev_state with
    | some current_state => some (current_state, none)
    | none => none

/-- The finite list of all items possibly live at position `pos`: a rule of
the grammar, a start of at most `pos`, and a progress of at most the body
length.  Used to size the fuel for the append-while-iterating loop. -/
def allItems (g : Grammar) (pos : Nat) : List Item :=
  g.rules.flatMap fun r =>
    (List.range (pos + 1)).flatMap fun s =>
      (List.range (r.body.length + 1)).map fun p =>
        { rule := r, start := s, progress := p }

/-- The `while let Some(item) = current_state.next()` loop of
`build_parse_state` in `src/lib.rs`: process items until the cursor is
exhausted, collecting successful scan results in `to_add`.  `none` models
fuel exhaustion or a panic inside `Item::complete`. -/
def innerLoop (g : Grammar) (prev_state : List StateSet) (input : List Char)
    (current_position : Nat) :
    Nat → StateSet → List Item → Option (StateSet × List Item)
  | 0, _, _ => none
  | fuel + 1, current_state, to_add =>
    match current_state.advance with
    | (none, current_state) => some (current_state, to_add)
    | (some item, current_state) =>
      match item.parse g current_state prev_state input current_position with
      | none => none
      | some (current_state, res) =>
        innerLoop g prev_state input current_position fuel current_state
          (match res with
           | some item => to_add ++ [item]
           | none => to_add)

/-- Fuel sufficient for the inner loop at one position: the current set can
only grow by pairwise-distinct items drawn from `allItems`. -/
def innerFuel (g : Grammar) (pos : Nat) (current_state : StateSet) : Nat :=
  current_state.items.length + (allItems g pos).length + 1

/-- The `for current_position in 0..=input.len()` loop of `build_parse_state`
in `src/lib.rs`, counting the remaining iterations in the first argument. -/
def outerLoop (g : Grammar) (input : List Char) :
    Nat → Nat → List StateSet → Option (Except (List Char) (List StateSet))
  | 0, _, parse_state => some (Except.ok parse_state)
  | k + 1, current_position, parse_state =>
    if parse_state.length ≤ current_position then
      some (Except.error (input.drop (current_position - 1)))
    else
      match parse_state.getLast? with
      | none => none
      | some current_state =>
        let prev_state := parse_state.dropLast
        match innerLoop g prev_state input current_position
            (innerFuel g current_position current_state) current_state [] with
        | none => none
        | some (current_state, to_add) =>
          outerLoop g input k (current_position + 1)
            (prev_state ++ [current_state] ++
              (if to_add.isEmpty then [] else [StateSet.new to_add]))

/-- `build_parse_state` from `src/lib.rs`: seed `S0` with the start-symbol
rules, then run the main loop over every position. -/
def build_parse_state (start_symbol : String) (g : Grammar)
    (input : List Char) : Option (Except (List Char) (List StateSet)) :=
  outerLoop g input (input.length + 1) 0
    [StateSet.new (Item.from_rules (g.get_rules_by_name start_symbol) 0)]

/-- `expand_input` from `src/lib.rs`. -/
def expand_input (input : String) : List Char := input.toList

/-- `recognise` from `src/lib.rs`: build the chart and check the last state
set for a complete start-symbol item starting at 0.  The `none` branches
model the Rust panics (shown unreachable below). -/
def recognise (g : Grammar) (input : String) : Bool :=
  let input := expand_input input
  let start_symbol := g.start_symbol
  match build_parse_state start_symbol g input with
  | some (Except.ok parse_state) =>
    match parse_state.getLast? with
    | some last =>
      (last.items.filter fun item =>
        item.rule_name == start_symbol && item.start == 0 &&
          item.is_complete).length != 0
    | none => false
  | _ => false

/-- A parse tree node, from `src/ast.rs` (`Node`). -/
inductive Node where
  | internal (name : String) (children : List Node)
  | leaf (c : Char)

mutual
/-- `Node::len` from `src/ast.rs`: leaves count 1, internal nodes sum their
children. -/
def Node.len : Node → Nat
  | .leaf _ => 1
  | .internal _ children => Node.lenList children

/-- The sum of `Node::len` over a list of children. -/
def Node.lenList : List Node → Nat
  | [] => 0
  | n :: ns => Node.len n + Node.lenList ns
end

mutual
/-- The in-order characters of a tree's leaves (the fringe). -/
def Node.leaves : Node → List Char
  | .leaf c => [c]
  | .internal _ children => Node.leavesList children

/-- The concatenated fringes of a list of children. -/
def Node.leavesList : List Node → List Char
  | [] => []
  | n :: ns => Node.leaves n ++ Node.leavesList ns
end

/-- The transposed item of `src/ast.rs` (`ast::Item`): a completed rule
annotated with its end position (the Rust field `end` is a Lean keyword, so
it is named `endPos`). -/
structure TItem where
  rule : Rule
  endPos : Nat
deriving DecidableEq, Repr

/-- `transpose` from `src/ast.rs`: bucket the completed items by start
position; within a bucket the order is by end position (the enclosing set's
index) and then by item order inside the set, exactly the push order of the
Rust loop. -/
def transpose (state : List StateSet) : List (List TItem) :=
  (List.range state.length).map fun s =>
    state.enum.flatMap fun p =>
      p.2.items.filterMap fun item =>
        if item.is_complete && item.start == s then
          some { rule := item.rule, endPos := p.1 }
        else none

/-- `Uncertain` from `src/utils.rs`. -/
inductive Uncertain where
  | known (n : Nat)
  | unknown (n : Nat)
deriving DecidableEq, Repr

/-- `Sub for Uncertain` from `src/utils.rs`.  Rust's `usize` subtraction
panics on underflow; `Nat` subtraction truncates instead, which only shrinks
the candidate filter below and never admits extra trees. -/
def Uncertain.sub : Uncertain → Uncertain → Uncertain
  | .known a, .known b => .known (a - b)
  | .known a, .unknown b => .unknown (a - b)
  | .unknown a, .known b => .unknown (a - b)
  | .unknown a, .unknown b => .unknown (a - b)

/-- `lowerbound_length` from `src/ast.rs`: assume a minimum length of one
character per remaining symbol. -/
def lowerbound_length (items : List Symbol) : Uncertain :=
  .unknown items.length

/-- The candidate filter of `NodeIterator::new` in `src/ast.rs`: an exact
end for `Known`, an upper bound for `Unknown`. -/
def endMatches (e : Uncertain) (endPos : Nat) : Bool :=
  match e with
  | .known x => endPos == x
  | .unknown x => endPos ≤ x

/-- The body walk of `NodeIterator::next` in `src/ast.rs`: enumerate the
lists of child trees for a body suffix, given the enumerator `nodesFor` for
nested rule references.  Each child starts where the previous children end;
the last symbol inherits the node's end constraint, earlier ones get the
relaxed `end - lowerbound_length rest` bound.  Terminals consult the input
directly (`self.input[child_start]`; an out-of-range index, a panic in Rust,
yields no child here).  The backtracking stack enumerates later children
fastest, which is exactly this list order. -/
def enumChildren (nodesFor : String → Nat → Uncertain → List Node)
    (input : List Char) :
    List Symbol → Nat → Uncertain → List (List Node)
  | [], _, _ => [[]]
  | sym :: rest, start, endC =>
    let child_end :=
      if rest.isEmpty then endC else endC.sub (lowerbound_length rest)
    let childNodes : List Node :=
      match sym with
      | .rule name => nodesFor name start child_end
      | .literal c =>
        match input.get? start with
        | some c' => if c' == c then [Node.leaf c] else []
        | none => []
      | .oneOf cs =>
        match input.get? start with
        | some c' => if cs.contains c' then [Node.leaf c'] else []
        | none => []
    childNodes.flatMap fun child =>
      (enumChildren nodesFor input rest (start + child.len) endC).map
        fun tail => child :: tail

/-- The lazy backtracking `NodeIterator` of `src/ast.rs`, embedded as a
fuel-indexed enumeration: `enumNodes ps input fuel name start endC` lists, in
the iterator's order, every tree the iterator yields whose nested rule
recursion is shallower than `fuel`.  Candidates are the transposed items with
the right name, start and end, in chart order (the Rust code reverses the
list and pops, which restores this order).  Rust indexes the transposed
chart with `parse_state[start]`; `getD` yields no candidate for an
out-of-range start instead of panicking. -/
def enumNodes (ps : List (List TItem)) (input : List Char) :
    Nat → String → Nat → Uncertain → List Node
  | 0, _, _, _ => []
  | fuel + 1, name, start, endC =>
    let candidates :=
      (ps.getD start []).filter fun it =>
        it.rule.name == name && endMatches endC it.endPos
    candidates.flatMap fun it =>
      (enumChildren (enumNodes ps input fuel) input it.rule.body start
          endC).map fun children =>
        Node.internal it.rule.name children

/-- `Node::from_parse_state` from `src/ast.rs`: enumerate trees for the start
symbol over the whole input from the transposed chart. -/
def from_parse_state (start_symbol : String) (parse_state : List StateSet)
    (input : List Char) (fuel : Nat) : List Node :=
  enumNodes (transpose parse_state) input fuel start_symbol 0
    (Uncertain.known input.length)

/-- Modelled from the spec: the public `parse` entry point (absent from
`src/lib.rs`, which only contains the recogniser): build the chart and hand
it to `Node::from_parse_state`; the sequence is empty when chart construction
fails. -/
def parse (g : Grammar) (input : String) (fuel : Nat) : List Node :=
  let input := expand_input input
  match build_parse_state g.start_symbol g input with
  | some (Except.ok parse_state) =>
    from_parse_state g.start_symbol parse_state input fuel
  | _ => []

/-- Whether a terminal symbol accepts a character: a `Literal` by equality,
a `OneOf` by membership (the match criteria of the scan branches of
`Item::parse`); a rule reference accepts nothing. -/
def symAccepts (s : Symbol) (c : Char) : Bool :=
  match s with
  | .literal c' => c == c'
  | .oneOf cs => cs.contains c
  | .rule _ => false

/-- The invariant the chart engine maintains for an item live at position
`i`: its rule is a grammar rule, its start is at most `i`, and its progress
is within the rule body. -/
def ItemBound (g : Grammar) (i : Nat) (it : Item) : Prop :=
  it.rule ∈ g.rules ∧ it.start ≤ i ∧ it.progress ≤ it.rule.body.length

/-! Concrete grammars used by the theorems below: the `Empty` and `Arith`
grammars of the repository's test suite, and small grammars exercising the
nullable-prediction closure, item equality and the tree extractor. -/

/-- The `Empty` grammar of the test suite: one rule with an empty body. -/
def EmptyG : Grammar := ⟨[⟨"Empty", []⟩]⟩

/-- The digit characters of the `Arith` grammar. -/
def digits : List Char := ['0', '1', '2', '3', '4', '5', '6', '7', '8', '9']

/-- The `Arith` grammar of the test suite. -/
def Arith : Grammar := ⟨[
  ⟨"Sum", [.rule "Sum", .oneOf ['+', '-'], .rule "Product"]⟩,
  ⟨"Sum", [.rule "Product"]⟩,
  ⟨"Product", [.rule "Product", .oneOf ['*', '/'], .rule "Factor"]⟩,
  ⟨"Product", [.rule "Factor"]⟩,
  ⟨"Factor", [.literal '(', .rule "Sum", .literal ')']⟩,
  ⟨"Factor", [.rule "Number"]⟩,
  ⟨"Number", [.oneOf digits, .rule "Number"]⟩,
  ⟨"Number", [.oneOf digits]⟩]⟩

/-- A grammar with two structurally identical rules (a legal alternation
spelling): used to probe item equality. -/
def DupRuleG : Grammar := ⟨[⟨"A", [.literal 'x']⟩, ⟨"A", [.literal 'x']⟩]⟩

/-- `S -> A "x"`: the first rule of `NullPredictG`. -/
def rSAx : Rule := ⟨"S", [.rule "A", .literal 'x']⟩

/-- `S -> B A`: the second rule of `NullPredictG`. -/
def rSBA : Rule := ⟨"S", [.rule "B", .rule "A"]⟩

/-- A grammar whose empty-input chart leaves an item predicting the nullable
`A` without its advanced form: `S -> A "x"; S -> B A; B -> ; A -> ;`. -/
def NullPredictG : Grammar := ⟨[rSAx, rSBA, ⟨"B", []⟩, ⟨"A", []⟩]⟩

/-- The single state set the engine builds for `NullPredictG` on input `""`
(checked by evaluation in the theorem that uses it). -/
def nullPredictS0 : StateSet :=
  ⟨[⟨rSAx, 0, 0⟩, ⟨rSBA, 0, 0⟩, ⟨⟨"A", []⟩, 0, 0⟩, ⟨⟨"B", []⟩, 0, 0⟩,
    ⟨rSAx, 0, 1⟩, ⟨rSBA, 0, 1⟩], 7⟩

/-- A grammar the recogniser wrongly accepts `""` for:
`S -> T; T -> A "y"; A -> ;` (the language is the single string `"y"`). -/
def FalseAcceptG : Grammar :=
  ⟨[⟨"S", [.rule "T"]⟩, ⟨"T", [.rule "A", .literal 'y']⟩, ⟨"A", []⟩]⟩

/-- A grammar whose tree extractor yields a tree covering only a prefix of
the input: `S -> A "x"; A -> "a"; A -> "ax"`. -/
def ShortTreeG : Grammar :=
  ⟨[⟨"S", [.rule "A", .literal 'x']⟩, ⟨"A", [.literal 'a']⟩,
    ⟨"A", [.literal 'a', .literal 'x']⟩]⟩

/-- A rule with a single-literal body, used to instantiate the scan frame
property at a concrete input. -/
def scanRule : Rule := ⟨"R", [.literal 'x']⟩

/-! ## Theorems -/

/-! ### The chart engine's invariants

`StateSet.add` only ever appends items that are not yet present; every item
the engine handles at position `pos` satisfies `ItemBound g pos`.  Together
these bound every state set by the finite candidate list `allItems`, which is
what makes the append-while-iterating loop reach its cursor's end and keeps
`Item::complete`'s indexing in bounds. -/

theorem ItemBound.mono {g : Grammar} {i j : Nat} {it : Item}
    (h : ItemBound g i it) (hij : i ≤ j) : ItemBound g j it :=
  ⟨h.1, h.2.1.trans hij, h.2.2⟩

theorem mem_allItems {g : Grammar} {pos : Nat} {it : Item}
    (h : ItemBound g pos it) : it ∈ allItems g pos := by
  obtain ⟨h1, h2, h3⟩ := h
  simp only [allItems, List.mem_flatMap, List.mem_map, List.mem_range]
  exact ⟨it.rule, h1, it.start, Nat.lt_succ_of_le h2,
    it.progress, Nat.lt_succ_of_le h3, rfl⟩

theorem length_le_of_nodup_subset {l m : List Item} (hnd : l.Nodup)
    (hsub : ∀ x ∈ l, x ∈ m) : l.length ≤ m.length := by
  calc l.length = l.toFinset.card := (List.toFinset_card_of_nodup hnd).symm
    _ ≤ m.toFinset.card := Finset.card_le_card fun x hx =>
        List.mem_toFinset.mpr (hsub x (List.mem_toFinset.mp hx))
    _ ≤ m.length := List.toFinset_card_le m

theorem add_foldl_spec (new : List Item) :
    ∀ init : List Item,
      ∃ f, new.foldl (fun acc item =>
          if acc.contains item then acc else acc ++ [item]) init =
        init ++ f ∧ f.Nodup ∧ ∀ x ∈ f, x ∈ new ∧ ¬ x ∈ init := by
  induction new with
  | nil => exact fun init => ⟨[], by simp, List.nodup_nil, by simp⟩
  | cons a as ih =>
    intro init
    rw [List.foldl_cons]
    by_cases h : a ∈ init
    · rw [if_pos (by simpa using h)]
      obtain ⟨f, hf, hnd, hm⟩ := ih init
      exact ⟨f, hf, hnd, fun x hx =>
        ⟨List.mem_cons_of_mem _ (hm x hx).1, (hm x hx).2⟩⟩
    · rw [if_neg (by simpa using h)]
      obtain ⟨f, hf, hnd, hm⟩ := ih (init ++ [a])
      refine ⟨a :: f, by simpa [List.append_assoc] using hf, ?_, ?_⟩
      · exact List.nodup_cons.mpr
          ⟨fun hx => (hm a hx).2 (by simp), hnd⟩
      · intro x hx
        rcases List.mem_cons.mp hx with rfl | hx
        · exact ⟨List.mem_cons_self _ _, h⟩
        · exact ⟨List.mem_cons_of_mem _ (hm x hx).1,
            fun hxi => (hm x hx).2 (List.mem_append_left _ hxi)⟩

theorem add_spec (s : StateSet) (new : List Item) :
    ∃ f, (s.add new).items = s.items ++ f ∧ (s.add new).next = s.next ∧
      f.Nodup ∧ ∀ x ∈ f, x ∈ new ∧ ¬ x ∈ s.items := by
  obtain ⟨f, hf, hnd, hm⟩ := add_foldl_spec new s.items
  exact ⟨f, hf, rfl, hnd, hm⟩

theorem progress_lt_of_next_name {it : Item} {nm : String}
    (h : it.next_name = some nm) :
    it.progress < it.rule.body.length := by
  unfold Item.next_name at h
  cases hg : it.rule.get it.progress with
  | none => rw [hg] at h; simp at h
  | some s =>
    unfold Rule.get at hg
    obtain ⟨hlt, _⟩ := List.get?_eq_some.mp hg
    exact hlt

theorem advanced_bound {g : Grammar} {i : Nat} {it : Item}
    (h : ItemBound g i it) (hlt : it.progress < it.rule.body.length) :
    ItemBound g i it.advanced :=
  ⟨h.1, h.2.1, hlt⟩

theorem complete_adds_bound {g : Grammar} {pos : Nat} (it : Item)
    (target : List Item) (htarget : ∀ x ∈ target, ItemBound g pos x) :
    ∀ x ∈ target.filterMap (fun item =>
        ((item.next_name).filter fun name => name == it.rule.name).map
          fun _ => item.advanced),
      ItemBound g pos x := by
  intro x hx
  obtain ⟨a, ha, hfa⟩ := List.mem_filterMap.mp hx
  cases hnn : a.next_name with
  | none => rw [hnn] at hfa; simp [Option.filter] at hfa
  | some nm =>
    rw [hnn] at hfa
    by_cases hb : (nm == it.rule.name) = true
    · simp only [Option.filter, hb, if_true, Option.map_some'] at hfa
      obtain rfl := Option.some.inj hfa
      exact advanced_bound (htarget a ha) (progress_lt_of_next_name hnn)
    · simp [Option.filter, hb] at hfa

theorem complete_spec {g : Grammar} {pos : Nat} (it : Item)
    (cur : StateSet) (prev : List StateSet)
    (hstart : it.start ≤ prev.length) (hlen : prev.length = pos)
    (hcur : ∀ x ∈ cur.items, ItemBound g pos x)
    (hprev : ∀ j set, prev.get? j = some set →
      ∀ x ∈ set.items, ItemBound g j x) :
    ∃ cur' f, it.complete cur prev = some cur' ∧
      cur'.items = cur.items ++ f ∧ cur'.next = cur.next ∧
      f.Nodup ∧ (∀ x ∈ f, ¬ x ∈ cur.items) ∧
      (∀ x ∈ f, ItemBound g pos x) := by
  by_cases hs : it.start = prev.length
  · obtain ⟨f, hf, hn, hnd, hm⟩ := add_spec cur
      (cur.items.filterMap fun item =>
        ((item.next_name).filter fun name => name == it.rule.name).map
          fun _ => item.advanced)
    refine ⟨_, f, ?_, hf, hn, hnd, fun x hx => (hm x hx).2,
      fun x hx => complete_adds_bound it cur.items hcur x (hm x hx).1⟩
    unfold Item.complete
    rw [if_pos hs]
    rfl
  · have hlt : it.start < prev.length := lt_of_le_of_ne hstart hs
    have hget : prev.get? it.start = some (prev.get ⟨it.start, hlt⟩) :=
      List.get?_eq_get hlt
    have htb : ∀ x ∈ (prev.get ⟨it.start, hlt⟩).items, ItemBound g pos x :=
      fun x hx => (hprev it.start _ hget x hx).mono (by omega)
    obtain ⟨f, hf, hn, hnd, hm⟩ := add_spec cur
      ((prev.get ⟨it.start, hlt⟩).items.filterMap fun item =>
        ((item.next_name).filter fun name => name == it.rule.name).map
          fun _ => item.advanced)
    refine ⟨_, f, ?_, hf, hn, hnd, fun x hx => (hm x hx).2,
      fun x hx =>
        complete_adds_bound it (prev.get ⟨it.start, hlt⟩).items htb x
          (hm x hx).1⟩
    unfold Item.complete
    rw [if_neg hs, hget]
    rfl

theorem parse_spec {g : Grammar} {pos : Nat} (it : Item) (cur : StateSet)
    (prev : List StateSet) (input : List Char)
    (hit : ItemBound g pos it) (hlen : prev.length = pos)
    (hcur : ∀ x ∈ cur.items, ItemBound g pos x)
    (hprev : ∀ j set, prev.get? j = some set →
      ∀ x ∈ set.items, ItemBound g j x) :
    ∃ cur' res f, it.parse g cur prev input pos = some (cur', res) ∧
      cur'.items = cur.items ++ f ∧ cur'.next = cur.next ∧
      f.Nodup ∧ (∀ x ∈ f, ¬ x ∈ cur.items) ∧
      (∀ x ∈ f, ItemBound g pos x) ∧
      ∀ x, res = some x → ItemBound g (pos + 1) x := by
  cases hsym : it.rule.get it.progress with
  | none =>
    obtain ⟨cur', f, hc, hi, hn, hnd, hdisj, hb⟩ :=
      complete_spec it cur prev (hlen ▸ hit.2.1) hlen hcur hprev
    have hstep : it.parse g cur prev input pos = some (cur', none) := by
      unfold Item.parse
      rw [hsym, hc]
    exact ⟨cur', none, f, hstep, hi, hn, hnd, hdisj, hb, by simp⟩
  | some sym =>
    have hplt : it.progress < it.rule.body.length := by
      unfold Rule.get at hsym
      obtain ⟨hlt, _⟩ := List.get?_eq_some.mp hsym
      exact hlt
    cases sym with
    | rule name =>
      obtain ⟨f1, hi1, hn1, hnd1, hm1⟩ :=
        add_spec cur (Item.from_rules (g.get_rules_by_name name) pos)
      have hb1 : ∀ x ∈ f1, ItemBound g pos x := by
        intro x hx
        obtain ⟨hmem, _⟩ := hm1 x hx
        obtain ⟨r, hr, rfl⟩ := List.mem_map.mp hmem
        exact ⟨List.mem_of_mem_filter hr, le_refl pos, Nat.zero_le _⟩
      have hcur1 : ∀ x ∈
          (cur.add (Item.from_rules (g.get_rules_by_name name) pos)).items,
          ItemBound g pos x := by
        intro x hx
        rw [hi1] at hx
        rcases List.mem_append.mp hx with hx | hx
        · exact hcur x hx
        · exact hb1 x hx
      by_cases hnul : g.rule_is_nullable name = true
      · obtain ⟨cur', f2, hc, hi2, hn2, hnd2, hdisj2, hb2⟩ :=
          complete_spec it
            (cur.add (Item.from_rules (g.get_rules_by_name name) pos)) prev
            (hlen ▸ hit.2.1) hlen hcur1 hprev
        have hstep : it.parse g cur prev input pos = some (cur', none) := by
          unfold Item.parse
          rw [hsym]
          simp [hnul, hc]
        refine ⟨cur', none, f1 ++ f2, hstep, ?_, ?_, ?_, ?_, ?_, by simp⟩
        · rw [hi2, hi1, List.append_assoc]
        · rw [hn2, hn1]
        · refine List.nodup_append.mpr ⟨hnd1, hnd2, ?_⟩
          intro a ha1 ha2
          exact hdisj2 a ha2 (hi1 ▸ List.mem_append_right _ ha1)
        · intro x hx
          rcases List.mem_append.mp hx with hx | hx
          · exact (hm1 x hx).2
          · exact fun hxc => hdisj2 x hx (hi1 ▸ List.mem_append_left _ hxc)
        · intro x hx
          rcases List.mem_append.mp hx with hx | hx
          · exact hb1 x hx
          · exact hb2 x hx
      · have hnul' : g.rule_is_nullable name = false :=
          Bool.not_eq_true _ ▸ Bool.of_not_eq_true hnul
        have hstep : it.parse g cur prev input pos =
            some (cur.add (Item.from_rules (g.get_rules_by_name name) pos),
              none) := by
          unfold Item.parse
          rw [hsym]
          simp [hnul']
        exact ⟨_, none, f1, hstep, hi1, hn1, hnd1,
          fun x hx => (hm1 x hx).2, hb1, by simp⟩
    | literal c =>
      have hstep : it.parse g cur prev input pos =
          some (cur, it.scan input pos fun next => next == c) := by
        unfold Item.parse
        rw [hsym]
      refine ⟨cur, _, [], hstep, by simp, rfl, List.nodup_nil, by simp,
        by simp, ?_⟩
      intro x hx
      unfold Item.scan at hx
      obtain ⟨a, -, hmap⟩ := Option.map_eq_some'.mp hx
      exact hmap ▸ (advanced_bound hit hplt).mono (Nat.le_succ pos)
    | oneOf cs =>
      have hstep : it.parse g cur prev input pos =
          some (cur, it.scan input pos fun next => cs.contains next) := by
        unfold Item.parse
        rw [hsym]
      refine ⟨cur, _, [], hstep, by simp, rfl, List.nodup_nil, by simp,
        by simp, ?_⟩
      intro x hx
      unfold Item.scan at hx
      obtain ⟨a, -, hmap⟩ := Option.map_eq_some'.mp hx
      exact hmap ▸ (advanced_bound hit hplt).mono (Nat.le_succ pos)

/-- Claim C5: `is_nullable(R, N)` returns true iff R's body is empty, or
every symbol in R's body is a RuleRef whose target is a member of N or equal
to R's own name; in particular any body containing a Literal or OneOf symbol
makes it return false. -/
theorem is_nullable_iff (r : Rule) (N : List String) :
    r.is_nullable N = true ↔
      (r.body = [] ∨
        ∀ s ∈ r.body, ∃ name, s = Symbol.rule name ∧
          (name ∈ N ∨ name = r.name)) := by
  unfold Rule.is_nullable
  by_cases hemp : r.body = []
  · simp [hemp]
  · rw [if_neg (fun h => hemp (List.isEmpty_iff.mp h))]
    by_cases hterm : r.body.any Symbol.is_terminal = true
    · rw [if_pos hterm]
      constructor
      · intro h
        exact absurd h (by simp)
      · rintro (h | h)
        · exact absurd h hemp
        · obtain ⟨s, hs, hst⟩ := List.any_eq_true.mp hterm
          obtain ⟨name, hn, _⟩ := h s hs
          rw [hn] at hst
          simp [Symbol.is_terminal, Symbol.rule_name] at hst
    · rw [if_neg hterm]
      rw [List.all_eq_true]
      constructor
      · intro hall
        refine Or.inr fun s hs => ?_
        cases s with
        | rule name =>
          have h1 := hall _ hs
          simp only [Symbol.rule_name] at h1
          have h2 : name = r.name ∨ name ∈ N := by simpa using h1
          rcases h2 with h | h
          · exact ⟨name, rfl, Or.inr h⟩
          · exact ⟨name, rfl, Or.inl h⟩
        | literal c =>
          exact absurd (List.any_eq_true.mpr ⟨_, hs, rfl⟩) hterm
        | oneOf cs =>
          exact absurd (List.any_eq_true.mpr ⟨_, hs, rfl⟩) hterm
      · rintro (h | h)
        · exact absurd h hemp
        · intro s hs
          obtain ⟨name, rfl, hmem⟩ := h s hs
          simp only [Symbol.rule_name]
          rcases hmem with hmem | hmem
          · simp [hmem]
          · simp [hmem]

theorem innerLoop_spec (g : Grammar) (prev : List StateSet)
    (input : List Char) (pos : Nat) (hlen : prev.length = pos)
    (hprev : ∀ j set, prev.get? j = some set →
      ∀ x ∈ set.items, ItemBound g j x) :
    ∀ (fuel : Nat) (init ext : List Item) (cur : StateSet)
      (to_add : List Item),
      cur.items = init ++ ext →
      ext.Nodup → (∀ x ∈ ext, ¬ x ∈ init) →
      (∀ x ∈ cur.items, ItemBound g pos x) →
      (∀ x ∈ to_add, ItemBound g (pos + 1) x) →
      cur.next ≤ cur.items.length →
      init.length + (allItems g pos).length + 1 ≤ fuel + cur.next →
      ∃ cur' to_add',
        innerLoop g prev input pos fuel cur to_add = some (cur', to_add') ∧
        (∀ x ∈ cur'.items, ItemBound g pos x) ∧
        (∀ x ∈ to_add', ItemBound g (pos + 1) x) := by
  intro fuel
  induction fuel with
  | zero =>
    intro init ext cur to_add hitems hnd hdisj hcb htb hnext hfuel
    exfalso
    have hsub : ∀ x ∈ ext, x ∈ allItems g pos := fun x hx =>
      mem_allItems (hcb x (hitems ▸ List.mem_append_right _ hx))
    have hle := length_le_of_nodup_subset hnd hsub
    have hlen' : cur.items.length = init.length + ext.length := by
      rw [hitems, List.length_append]
    omega
  | succ fuel ih =>
    intro init ext cur to_add hitems hnd hdisj hcb htb hnext hfuel
    cases hget : cur.items.get? cur.next with
    | none =>
      refine ⟨{ cur with next := cur.next + 1 }, to_add, ?_, hcb, htb⟩
      unfold innerLoop StateSet.advance
      rw [hget]
    | some item =>
      have hmem : item ∈ cur.items := List.get?_mem hget
      have hlt : cur.next < cur.items.length := by
        obtain ⟨h, _⟩ := List.get?_eq_some.mp hget
        exact h
      obtain ⟨cur2, res, f, hp, hi2, hn2, hnd2, hdisj2, hb2, hres⟩ :=
        parse_spec item { cur with next := cur.next + 1 } prev input
          (hcb item hmem) hlen hcb hprev
      have hitems2 : cur2.items = init ++ (ext ++ f) := by
        rw [hi2]
        show cur.items ++ f = _
        rw [hitems, List.append_assoc]
      have hnd2' : (ext ++ f).Nodup := by
        refine List.nodup_append.mpr ⟨hnd, hnd2, ?_⟩
        intro a ha1 ha2
        exact hdisj2 a ha2 (hitems ▸ List.mem_append_right _ ha1)
      have hdisj' : ∀ x ∈ ext ++ f, ¬ x ∈ init := by
        intro x hx
        rcases List.mem_append.mp hx with hx | hx
        · exact hdisj x hx
        · exact fun hxi => hdisj2 x hx (hitems ▸ List.mem_append_left _ hxi)
      have hcb2 : ∀ x ∈ cur2.items, ItemBound g pos x := by
        intro x hx
        rw [hi2] at hx
        rcases List.mem_append.mp hx with hx | hx
        · exact hcb x hx
        · exact hb2 x hx
      have hnext2 : cur2.next ≤ cur2.items.length := by
        have h1 : cur2.next = cur.next + 1 := hn2
        have h2 : cur2.items.length = cur.items.length + f.length := by
          rw [hi2]
          show (cur.items ++ f).length = _
          rw [List.length_append]
        omega
      cases res with
      | none =>
        have step_eq : innerLoop g prev input pos (fuel + 1) cur to_add =
            innerLoop g prev input pos fuel cur2 to_add := by
          conv_lhs => unfold innerLoop StateSet.advance
          rw [hget]
          dsimp only
          rw [hp]
        obtain ⟨cur', to_add', hloop, hb', ht'⟩ :=
          ih init (ext ++ f) cur2 to_add hitems2 hnd2' hdisj' hcb2 htb
            hnext2 (by have h1 : cur2.next = cur.next + 1 := hn2; omega)
        exact ⟨cur', to_add', by rw [step_eq]; exact hloop, hb', ht'⟩
      | some r =>
        have step_eq : innerLoop g prev input pos (fuel + 1) cur to_add =
            innerLoop g prev input pos fuel cur2 (to_add ++ [r]) := by
          conv_lhs => unfold innerLoop StateSet.advance
          rw [hget]
          dsimp only
          rw [hp]
        have htb2 : ∀ x ∈ to_add ++ [r], ItemBound g (pos + 1) x := by
          intro x hx
          rcases List.mem_append.mp hx with hx | hx
          · exact htb x hx
          · rw [List.mem_singleton.mp hx]
            exact hres r rfl
        obtain ⟨cur', to_add', hloop, hb', ht'⟩ :=
          ih init (ext ++ f) cur2 (to_add ++ [r]) hitems2 hnd2' hdisj' hcb2
            htb2 hnext2 (by have h1 : cur2.next = cur.next + 1 := hn2; omega)
        exact ⟨cur', to_add', by rw [step_eq]; exact hloop, hb', ht'⟩

theorem outerLoop_spec (g : Grammar) (input : List Char) :
    ∀ (k cp : Nat) (sets : List StateSet),
      (∀ j set, sets.get? j = some set →
        ∀ x ∈ set.items, ItemBound g j x) →
      sets ≠ [] →
      (sets.length = cp + 1 ∧
          (∀ s, sets.getLast? = some s → s.next = 0) ∨
        sets.length ≤ cp) →
      ∃ r, outerLoop g input k cp sets = some r ∧
        ∀ chart, r = Except.ok chart →
          chart ≠ [] ∧
          ∀ j set, chart.get? j = some set →
            ∀ x ∈ set.items, ItemBound g j x := by
  intro k
  induction k with
  | zero =>
    intro cp sets hsets hne _
    exact ⟨Except.ok sets, rfl, fun chart hc => by
      cases hc
      exact ⟨hne, hsets⟩⟩
  | succ k ih =>
    intro cp sets hsets hne hshape
    by_cases hcp : sets.length ≤ cp
    · refine ⟨Except.error (input.drop (cp - 1)), ?_, by simp⟩
      unfold outerLoop
      rw [if_pos hcp]
    · have hlen1 : sets.length = cp + 1 := by
        rcases hshape with ⟨h, _⟩ | h
        · exact h
        · exact absurd h hcp
      have hnext0 : ∀ s, sets.getLast? = some s → s.next = 0 := by
        rcases hshape with ⟨_, h⟩ | h
        · exact h
        · exact absurd h hcp
      cases hlast : sets.getLast? with
      | none => exact absurd (List.getLast?_eq_none.mp hlast) hne
      | some cur =>
        have hcur_get : sets.get? cp = some cur := by
          have h0 := List.getLast?_eq_get? sets
          have h1 : sets.length - 1 = cp := by omega
          rw [hlast, h1] at h0
          exact h0.symm
        have hprevlen : sets.dropLast.length = cp := by
          rw [List.length_dropLast, hlen1]
          omega
        have hprev : ∀ j set, sets.dropLast.get? j = some set →
            ∀ x ∈ set.items, ItemBound g j x := by
          intro j set hj
          have hjlt : j < sets.dropLast.length := by
            obtain ⟨h, _⟩ := List.get?_eq_some.mp hj
            exact h
          have : sets.get? j = some set := by
            rw [List.dropLast_eq_take] at hj
            rwa [List.get?_take (by omega : j < sets.length - 1)] at hj
          exact hsets j set this
        have hcb : ∀ x ∈ cur.items, ItemBound g cp x :=
          hsets cp cur hcur_get
        obtain ⟨cur', to_add', hloop, hb', ht'⟩ :=
          innerLoop_spec g sets.dropLast input cp hprevlen hprev
            (innerFuel g cp cur) cur.items [] cur []
            (by simp) List.nodup_nil (by simp) hcb (by simp)
            (by rw [hnext0 cur hlast]; exact Nat.zero_le _)
            (by
              rw [hnext0 cur hlast]
              unfold innerFuel
              omega)
        have hsets' : ∀ j set,
            (sets.dropLast ++ [cur'] ++
              (if to_add'.isEmpty then [] else [StateSet.new to_add'])).get?
              j = some set →
            ∀ x ∈ set.items, ItemBound g j x := by
          intro j set hj
          rw [List.append_assoc] at hj
          rcases Nat.lt_trichotomy j cp with hlt | heq | hgt
          · rw [List.get?_append (by rw [hprevlen]; exact hlt)] at hj
            exact hprev j set hj
          · subst heq
            rw [List.get?_append_right (by rw [hprevlen]),
              hprevlen, Nat.sub_self, List.singleton_append,
              List.get?_cons_zero] at hj
            obtain rfl := Option.some.inj hj
            exact hb'
          · rw [List.get?_append_right
                (by rw [hprevlen]; omega : sets.dropLast.length ≤ j),
              hprevlen] at hj
            have hd : j - cp = (j - cp - 1) + 1 := by omega
            rw [hd, List.singleton_append, List.get?_cons_succ] at hj
            by_cases hta : to_add'.isEmpty
            · rw [if_pos hta] at hj
              simp at hj
            · rw [if_neg hta] at hj
              rcases he : j - cp - 1 with _ | n
              · rw [he, List.get?_cons_zero] at hj
                obtain rfl := Option.some.inj hj
                intro x hx
                exact (ht' x hx).mono (by omega)
              · rw [he, List.get?_cons_succ] at hj
                simp at hj
        have hshape' :
            ((sets.dropLast ++ [cur'] ++
                (if to_add'.isEmpty then [] else
                  [StateSet.new to_add'])).length = (cp + 1) + 1 ∧
              ∀ s, (sets.dropLast ++ [cur'] ++
                (if to_add'.isEmpty then [] else
                  [StateSet.new to_add'])).getLast? = some s →
                s.next = 0) ∨
            (sets.dropLast ++ [cur'] ++
              (if to_add'.isEmpty then [] else
                [StateSet.new to_add'])).length ≤ cp + 1 := by
          by_cases hta : to_add'.isEmpty
          · right
            rw [if_pos hta]
            simp only [List.append_nil, List.length_append,
              List.length_singleton, hprevlen]
            omega
          · left
            rw [if_neg hta]
            constructor
            · simp only [List.length_append, List.length_singleton,
                hprevlen]
            · intro s hs
              rw [List.getLast?_concat] at hs
              obtain rfl := Option.some.inj hs
              rfl
        obtain ⟨r, hr, hok⟩ := ih (cp + 1)
          (sets.dropLast ++ [cur'] ++
            (if to_add'.isEmpty then [] else [StateSet.new to_add']))
          hsets' (by simp) hshape'
        refine ⟨r, ?_, hok⟩
        unfold outerLoop
        rw [if_neg hcp, hlast]
        dsimp only
        rw [hloop]
        exact hr

theorem build_parse_state_spec (start_symbol : String) (g : Grammar)
    (input : List Char) :
    ∃ r, build_parse_state start_symbol g input = some r ∧
      ∀ chart, r = Except.ok chart →
        chart ≠ [] ∧
        ∀ j set, chart.get? j = some set →
          ∀ x ∈ set.items, ItemBound g j x := by
  have hseed : ∀ j set,
      ([StateSet.new (Item.from_rules (g.get_rules_by_name start_symbol)
        0)] : List StateSet).get? j = some set →
      ∀ x ∈ set.items, ItemBound g j x := by
    intro j set hj
    rcases j with _ | j
    · rw [List.get?_cons_zero] at hj
      obtain rfl := Option.some.inj hj
      intro x hx
      obtain ⟨r, hr, rfl⟩ := List.mem_map.mp hx
      exact ⟨List.mem_of_mem_filter hr, Nat.zero_le _, Nat.zero_le _⟩
    · simp at hj
  refine outerLoop_spec g input (input.length + 1) 0 _ hseed (by simp)
    (Or.inl ⟨by simp, ?_⟩)
  intro s hs
  rw [List.getLast?_singleton] at hs
  obtain rfl := Option.some.inj hs
  rfl

theorem outerLoop_error_shape (g : Grammar) (input : List Char) :
    ∀ (k cp : Nat) (sets : List StateSet) (e : List Char),
      sets ≠ [] → cp + k ≤ input.length + 1 →
      outerLoop g input k cp sets = some (Except.error e) →
      ∃ i, 1 ≤ i ∧ i ≤ input.length ∧ e = input.drop (i - 1) := by
  intro k
  induction k with
  | zero =>
    intro cp sets e _ _ h
    unfold outerLoop at h
    simp at h
  | succ k ih =>
    intro cp sets e hne hcpk h
    unfold outerLoop at h
    by_cases hcp : sets.length ≤ cp
    · rw [if_pos hcp] at h
      simp only [Option.some.injEq, Except.error.injEq] at h
      refine ⟨cp, ?_, ?_, h.symm⟩
      · have : 0 < sets.length := List.length_pos.mpr hne
        omega
      · omega
    · rw [if_neg hcp] at h
      cases hlast : sets.getLast? with
      | none => rw [hlast] at h; simp at h
      | some cur =>
        rw [hlast] at h
        dsimp only at h
        cases hloop : innerLoop g sets.dropLast input cp
            (innerFuel g cp cur) cur [] with
        | none => rw [hloop] at h; simp at h
        | some p =>
          rw [hloop] at h
          exact ih (cp + 1) _ e (by simp) (by omega) h

/-- Claim C7, counterexample: two distinct grammar rules with the same name
and body produce items the engine's equality identifies: both lookups return
the same item and `StateSet::add` keeps only one of the two. -/
theorem distinct_rules_give_equal_items :
    (DupRuleG.get_rules_by_name "A").length = 2 ∧
    (Item.from_rules (DupRuleG.get_rules_by_name "A") 0).get? 0 =
      (Item.from_rules (DupRuleG.get_rules_by_name "A") 0).get? 1 ∧
    ((StateSet.new []).add
        (Item.from_rules (DupRuleG.get_rules_by_name "A") 0)).items.length =
      1 :=
  ⟨rfl, rfl, rfl⟩

/-- Claim C7, amended: two Earley items are equal iff the start positions are
equal, the progress indices are equal, and the referenced rules are
structurally equal (same name and same body): Rust's derived `PartialEq`
compares the `&Rule` field through the reference, so two distinct rule
objects with the same name and body give rise to equal items. -/
theorem item_equality_structural (r1 r2 : Rule) (s1 s2 p1 p2 : Nat) :
    ((⟨r1, s1, p1⟩ : Item) = ⟨r2, s2, p2⟩) ↔
      (r1.name = r2.name ∧ r1.body = r2.body ∧ s1 = s2 ∧ p1 = p2) := by
  cases r1
  cases r2
  simp [Rule.mk.injEq, and_assoc]

/-- Claim C8: processing an item whose next symbol is a terminal returns the
current state set unchanged; the advanced item is produced (for the caller's
`to_add` buffer feeding the next state set) exactly when the terminal accepts
`input[i]`, and nothing is produced on a miss or past the end of input. -/
theorem scan_does_not_modify_state_set (g : Grammar)
    (current_state : StateSet) (prev_state : List StateSet)
    (input : List Char) (pos : Nat) (it : Item) (sym : Symbol)
    (hsym : it.rule.get it.progress = some sym)
    (hterm : sym.is_terminal = true) :
    it.parse g current_state prev_state input pos =
      some (current_state,
        match input.get? pos with
        | some c => if symAccepts sym c then some it.advanced else none
        | none => none) := by
  unfold Item.parse
  rw [hsym]
  cases sym with
  | rule name => simp [Symbol.is_terminal, Symbol.rule_name] at hterm
  | literal c =>
    show some (current_state, it.scan input pos fun next => next == c) = _
    unfold Item.scan
    cases hin : input.get? pos with
    | none => rfl
    | some c' =>
      by_cases hc : (c' == c) = true
      · simp [Option.filter, hc, symAccepts]
      · simp [Option.filter, hc, symAccepts]
  | oneOf cs =>
    show some (current_state, it.scan input pos fun next => cs.contains next) =
      _
    unfold Item.scan
    cases hin : input.get? pos with
    | none => rfl
    | some c' =>
      by_cases hc : cs.contains c' = true
      · simp [Option.filter, hc, symAccepts]
      · simp [Option.filter, hc, symAccepts]

/-- Claim C8, witness: scanning `'x'` against the literal rule at position 0
leaves the (empty) current state set unchanged and produces the advanced
item. -/
theorem scan_does_not_modify_state_set_witness :
    Item.parse ⟨scanRule, 0, 0⟩ ⟨[scanRule]⟩ (StateSet.new []) [] ['x'] 0 =
      some (StateSet.new [], some (Item.advanced ⟨scanRule, 0, 0⟩)) := by
  rw [scan_does_not_modify_state_set ⟨[scanRule]⟩ (StateSet.new []) []
    ['x'] 0 ⟨scanRule, 0, 0⟩ (Symbol.literal 'x') rfl rfl]
  rfl

set_option maxHeartbeats 1600000 in
/-- Claim C1: on input `""` the `NullPredictG` chart keeps the item
`(S -> B A, 0, 1)` whose next symbol is the nullable `A`, yet its advanced
form `(S -> B A, 0, 2)` is never appended: the code runs `Item::complete` for
the predicting item's own rule instead of appending the advanced item, and in
consequence the recogniser rejects the empty string although `S => B A => ε`
derives it. -/
theorem nullable_prediction_drops_advanced_item :
    NullPredictG.rule_is_nullable "A" = true ∧
    build_parse_state NullPredictG.start_symbol NullPredictG
        (expand_input "") = some (Except.ok [nullPredictS0]) ∧
    (⟨rSBA, 0, 1⟩ : Item) ∈ nullPredictS0.items ∧
    Item.next_name ⟨rSBA, 0, 1⟩ = some "A" ∧
    ¬ (⟨rSBA, 0, 2⟩ : Item) ∈ nullPredictS0.items ∧
    recognise NullPredictG "" = false :=
  ⟨by decide, rfl, by decide, rfl, by decide, rfl⟩

/-- Claim C3: for `FalseAcceptG` and input `""` the recogniser answers true
while the tree extractor yields no tree at any recursion depth (`""` is not
in the language, so the recogniser side is the wrong one). -/
theorem recognise_without_parse_tree :
    recognise FalseAcceptG "" = true ∧
    ∀ fuel, parse FalseAcceptG "" fuel = [] := by
  refine ⟨rfl, fun fuel => ?_⟩
  match fuel with
  | 0 => rfl
  | 1 => rfl
  | n + 2 => rfl

set_option maxHeartbeats 1600000 in
/-- Claim C4: on `ShortTreeG` and input `"axx"` the first tree the extractor
yields has fringe `"ax"`, not the full input: choosing the shorter `A`
alternative satisfies the final literal early and no length check rejects the
short tree. -/
theorem extractor_yields_short_tree :
    (parse ShortTreeG "axx" 5).map Node.leaves =
      [['a', 'x'], ['a', 'x', 'x']] ∧
    expand_input "axx" = ['a', 'x', 'x'] ∧
    ¬ (['a', 'x'] : List Char) = ['a', 'x', 'x'] :=
  ⟨rfl, rfl, by decide⟩

/-- Claim C9: for every grammar and input the Earley loop terminates and
returns a value: the fuelled embedding never exhausts its fuel and never
reaches a panic branch (`Item::complete` indexing, `split_last`/`last`
unwraps), and the resulting chart is never empty, so `recognise`'s final
`unwrap` cannot fail either. -/
theorem earley_loop_always_returns (g : Grammar) (input : String) :
    ∃ r, build_parse_state g.start_symbol g (expand_input input) = some r ∧
      ∀ chart, r = Except.ok chart → chart.getLast?.isSome = true := by
  obtain ⟨r, hr, hok⟩ :=
    build_parse_state_spec g.start_symbol g (expand_input input)
  refine ⟨r, hr, fun chart hc => ?_⟩
  obtain ⟨hne, _⟩ := hok chart hc
  cases hl : chart.getLast? with
  | none => exact absurd (List.getLast?_eq_none.mp hl) hne
  | some s => rfl

/-- Claim C10: in any chart the engine returns, every item of state set `Sj`
has start position at most `j`; in particular the completion step's index
into the previous state sets (or the current one when the start equals the
current position) is always in bounds. -/
theorem items_start_at_or_before_their_set (g : Grammar) (input : List Char)
    (chart : List StateSet)
    (hok : build_parse_state g.start_symbol g input =
      some (Except.ok chart)) :
    ∀ j set, chart.get? j = some set → ∀ it ∈ set.items, it.start ≤ j := by
  obtain ⟨r, hr, hspec⟩ := build_parse_state_spec g.start_symbol g input
  have hrc : r = Except.ok chart := Option.some.inj (hr.symm.trans hok)
  intro j set hj it hit
  exact ((hspec chart hrc).2 j set hj it hit).2.1

/-- Claim C10, witness: the single item of the `Empty` grammar's chart for
`""` starts at position 0 of state set 0. -/
theorem items_start_at_or_before_their_set_witness :
    (⟨⟨"Empty", []⟩, 0, 0⟩ : Item).start ≤ 0 :=
  items_start_at_or_before_their_set EmptyG []
    [⟨[⟨⟨"Empty", []⟩, 0, 0⟩], 2⟩] rfl 0 ⟨[⟨⟨"Empty", []⟩, 0, 0⟩], 2⟩ rfl
    ⟨⟨"Empty", []⟩, 0, 0⟩ (List.mem_singleton.mpr rfl)

set_option maxHeartbeats 1600000 in
/-- Claim C6: whenever chart construction fails it returns the suffix
`input[i-1..]` for the position `i` at which no state set existed; on the
`Arith` grammar the inputs `"1%2"` and `"+1"` fail with suffixes `"%2"` and
`"+1"` respectively. -/
theorem chart_failure_returns_unconsumed_suffix :
    (∀ (start_symbol : String) (g : Grammar) (input e : List Char),
        build_parse_state start_symbol g input = some (Except.error e) →
        ∃ i, 1 ≤ i ∧ i ≤ input.length ∧ e = input.drop (i - 1)) ∧
    build_parse_state Arith.start_symbol Arith (expand_input "1%2") =
      some (Except.error (expand_input "%2")) ∧
    build_parse_state Arith.start_symbol Arith (expand_input "+1") =
      some (Except.error (expand_input "+1")) := by
  refine ⟨?_, rfl, rfl⟩
  intro ss g input e h
  exact outerLoop_error_shape g input (input.length + 1) 0 _ e (by simp)
    (by omega) h

/-- Claim C2: the recogniser answers true iff chart construction succeeds and
the last state set holds at least one complete item for the start symbol
starting at 0; in every other case (construction failure included) it answers
false. -/
theorem recognise_iff_accepting_item (g : Grammar) (input : String) :
    recognise g input = true ↔
      ∃ parse_state last,
        build_parse_state g.start_symbol g (expand_input input) =
          some (Except.ok parse_state) ∧
        parse_state.getLast? = some last ∧
        ∃ item ∈ last.items,
          item.rule_name = g.start_symbol ∧ item.start = 0 ∧
            item.is_complete = true := by
  unfold recognise
  cases hb : build_parse_state g.start_symbol g (expand_input input) with
  | none => simp [hb]
  | some r =>
    cases r with
    | error e => simp [hb]
    | ok ps =>
      simp only [hb]
      cases hl : ps.getLast? with
      | none => simp [hl]
      | some last =>
        simp [hl, bne_iff_ne, ne_eq, List.length_eq_zero,
          List.filter_eq_nil_iff, Bool.and_eq_true, beq_iff_eq, not_forall,
          not_not]

end Parsey
